import Mathlib

/-!
Shallow embedding of the AIMET repository fragments under verification:
the packaging helpers of `packaging/setup.py.in`, and the quantization
encoding engine (statistics accumulator, encoding analyzers, quantize /
dequantize kernels, tensor quantizer state machine) documented by the
specification.  Python strings are modelled as lists of characters,
Python floats as rationals, and Python exceptions with `Option` or
`Except`.
-/

/-- Python strings are modelled as lists of characters. -/
abbrev PyStr := List Char

namespace SetupPy

/-- Model of Python `str.lstrip()`: remove leading whitespace. -/
def pyLstrip (s : PyStr) : PyStr := s.dropWhile Char.isWhitespace

/-- Model of Python `str.strip()`: remove leading and trailing whitespace. -/
def pyStrip (s : PyStr) : PyStr :=
  ((s.dropWhile Char.isWhitespace).reverse.dropWhile Char.isWhitespace).reverse

/-- Model of Python `str.startswith(p)`. -/
def pyStartswith (s p : PyStr) : Bool := List.isPrefixOf p s

/-- Model of Python `str.endswith(p)`. -/
def pyEndswith (s p : PyStr) : Bool := List.isSuffixOf p s

/-- Model of Python `str.split(sep)` for a non-empty separator `sep`:
split at every occurrence of `sep`, keeping empty fragments, so that
splitting `a -f u` on `-f ` yields the fragments `a ` and `u`. -/
def pySplitSep (sep : PyStr) : PyStr → List PyStr
  | [] => [[]]
  | c :: rest =>
    if h : sep = [] then [c :: rest]
    else if List.isPrefixOf sep (c :: rest) then
      [] :: pySplitSep sep ((c :: rest).drop sep.length)
    else
      match pySplitSep sep rest with
      | [] => [[c]]
      | t :: ts => (c :: t) :: ts
termination_by s => s.length
decreasing_by
  · have hlen : sep.length ≠ 0 := fun hn => h (List.length_eq_zero.mp hn)
    simp only [List.length_drop, List.length_cons]
    omega
  · simp only [List.length_cons]
    omega

/-- One iteration of the `get_dependency_urls` loop of
`packaging/setup.py.in`: skip commented-out lines, split the line on
the `-f ` delimiter, and when a URL part is present (split length > 1)
return element 1 with surrounding whitespace stripped. -/
def urlOfLine (dependency_line : PyStr) : Option PyStr :=
  if pyStartswith (pyStrip dependency_line) ['#'] then none
  else
    match pySplitSep ['-', 'f', ' '] dependency_line with
    | _ :: url :: _ => some (pyStrip url)
    | _ => none

/-- One step of the `get_dependency_urls` fold: append the line's URL
(when present) only when it is not already in the result list. -/
def urlStep (dependency_urls_list : List PyStr) (line : PyStr) :
    List PyStr :=
  match urlOfLine line with
  | none => dependency_urls_list
  | some dependency_url =>
    if dependency_url ∈ dependency_urls_list then dependency_urls_list
    else dependency_urls_list ++ [dependency_url]

/-- `get_dependency_urls` of `packaging/setup.py.in` (lines 106-134):
fold over the lines of the dependency file, appending each extracted
URL only when it is not already present in the result list. -/
def get_dependency_urls (lines : List PyStr) : List PyStr :=
  lines.foldl urlStep []

/-- Specification-side description of a duplicate-free list in
first-occurrence order: keep each element's first occurrence and drop
all later duplicates. -/
def dedupKeepFirst {α : Type} [DecidableEq α] : List α → List α
  | [] => []
  | x :: xs => x :: dedupKeepFirst (xs.filter (fun y => y ≠ x))
termination_by l => l.length
decreasing_by
  simp only [List.length_cons]
  exact Nat.lt_succ_of_le (List.length_filter_le _ xs)

/-- `get_dependency_wheel` of `packaging/setup.py.in` (lines 63-70):
walk the directory tree (modelled as the list of per-directory file
lists), returning the first file whose name starts with
`wheel_starts_with` + `-` + the software version and ends with `whl`;
when no file matches, the literal four-character string `None` is
returned (not a null value). -/
def get_dependency_wheel (wheel_starts_with sw_version : PyStr)
    (walk : List (List PyStr)) : PyStr :=
  match walk.flatten.find? (fun file =>
      pyStartswith file (wheel_starts_with ++ '-' :: sw_version) &&
      pyEndswith file ['w', 'h', 'l']) with
  | some file => file
  | none => ['N', 'o', 'n', 'e']

/-- Model of Python `str.split()` with no separator: split on runs of
whitespace, discarding empty tokens.  The first argument holds the
characters of the token currently being read, in reverse order. -/
def wsSplitAux : List Char → List Char → List PyStr
  | acc, [] => if acc.isEmpty then [] else [acc.reverse]
  | acc, c :: rest =>
    if c.isWhitespace then
      if acc.isEmpty then wsSplitAux [] rest
      else acc.reverse :: wsSplitAux [] rest
    else wsSplitAux (c :: acc) rest

/-- Model of Python `str.split()` with no separator. -/
def pySplitWs (s : PyStr) : List PyStr := wsSplitAux [] s

/-- One step of the `get_dependency_packages` loop of
`packaging/setup.py.in` (lines 83-103): skip a line whose stripped form
starts with `#`, otherwise append the first whitespace-separated token
of the line.  The `none` result models the `IndexError` raised by
`dependency_line.lstrip().split()[0]` when the line has no tokens. -/
def depStep (acc : Option (List PyStr)) (dependency_line : PyStr) :
    Option (List PyStr) :=
  match acc with
  | none => none
  | some dependency_packages_list =>
    if pyStartswith (pyStrip dependency_line) ['#'] then
      some dependency_packages_list
    else
      match pySplitWs (pyLstrip dependency_line) with
      | [] => none
      | tok :: _ => some (dependency_packages_list ++ [tok])

/-- `get_dependency_packages` of `packaging/setup.py.in` (lines 83-103),
as the fold of `depStep` over the lines of the dependency file. -/
def get_dependency_packages (lines : List PyStr) : Option (List PyStr) :=
  lines.foldl depStep (some [])

end SetupPy

namespace Quant

/-- Modelled from the spec: the error taxonomy of the quantization core
(section 7), whose implementation is not part of the source fragment. -/
inductive QuantError : Type
  | emptyStatistics
  | shapeMismatch
  | invalidBitwidth
  | frozenStateViolation
deriving DecidableEq

/-- Modelled from the spec: the Encoding record of the data model
(section 3) of the quantization engine, whose implementation is not
part of the source fragment.  Floats are modelled as rationals. -/
structure Encoding : Type where
  bitwidth : ℕ
  is_symmetric : Bool
  min : ℚ
  max : ℚ
  scale : ℚ
  offset : ℤ
deriving DecidableEq

instance : Inhabited Encoding := ⟨⟨8, false, 0, 0, 1, 0⟩⟩

/-- Modelled from the spec: the Statistics Accumulator state (section 3)
of the quantization engine, whose implementation is not part of the
source fragment.  It carries both the running (min, max) pair and an
exact histogram of the observed samples, plus the number of absorbed
values. -/
structure Accumulator : Type where
  count : ℕ
  obsMin : ℚ
  obsMax : ℚ
  samples : List ℚ
deriving DecidableEq

/-- The aggregate statistics handed from the accumulator to an encoding
analyzer: observed range plus the exact histogram of samples. -/
structure QuantStats : Type where
  obsMin : ℚ
  obsMax : ℚ
  samples : List ℚ
deriving DecidableEq

/-- Modelled from the spec: a freshly initialised accumulator with no
absorbed statistics. -/
def Accumulator.init : Accumulator := ⟨0, 0, 0, []⟩

/-- Absorb one observed value into the accumulator. -/
def Accumulator.updateOne (a : Accumulator) (v : ℚ) : Accumulator :=
  if a.count = 0 then ⟨1, v, v, [v]⟩
  else ⟨a.count + 1, Min.min a.obsMin v, Max.max a.obsMax v, a.samples ++ [v]⟩

/-- Modelled from the spec: `update(values)` of the Statistics
Accumulator (section 4.1), whose implementation is not part of the
source fragment.  Absorbs a batch of observed values. -/
def Accumulator.update (a : Accumulator) (values : List ℚ) : Accumulator :=
  values.foldl Accumulator.updateOne a

/-- Modelled from the spec: `get_stats()` of the Statistics Accumulator
(section 4.1), whose implementation is not part of the source fragment.
A pure read; before any value has been absorbed it signals
`EmptyStatisticsError`. -/
def Accumulator.get_stats (a : Accumulator) : Except QuantError QuantStats :=
  if a.count = 0 then .error .emptyStatistics
  else .ok ⟨a.obsMin, a.obsMax, a.samples⟩

/-- Modelled from the spec: the closed set of encoding analyzer variants
(sections 4.2 and 9), whose implementation is not part of the source
fragment.  The percentile variant carries its configured percentile. -/
inductive AnalyzerKind : Type
  | tf
  | tfEnhanced
  | percentile (pct : ℚ)
  | mse
  | entropy
deriving DecidableEq

/-- The integer code floor of an encoding: 0 for asymmetric encodings,
the most negative signed code for symmetric ones. -/
def qmin (e : Encoding) : ℤ :=
  if e.is_symmetric then -(2 ^ (e.bitwidth - 1)) else 0

/-- The integer code ceiling of an encoding. -/
def qmax (e : Encoding) : ℤ :=
  if e.is_symmetric then 2 ^ (e.bitwidth - 1) - 1 else 2 ^ e.bitwidth - 1

/-- Saturating clamp of an integer code to the interval [lo, hi]. -/
def clampInt (x lo hi : ℤ) : ℤ := Max.max lo (Min.min hi x)

/-- Modelled from the spec: `quantize(value, encoding)` (section 4.3),
whose implementation is not part of the source fragment.  The code is
`round(value / scale + offset)` clamped to `[qmin, qmax]` (saturation,
not wraparound); `round` is round-half-up, a fixed nearest mode. -/
def quantize (value : ℚ) (e : Encoding) : ℤ :=
  clampInt (round (value / e.scale + e.offset)) (qmin e) (qmax e)

/-- Modelled from the spec: `dequantize(code, encoding)` (section 4.3),
whose implementation is not part of the source fragment:
`value = (code - offset) * scale`. -/
def dequantize (code : ℤ) (e : Encoding) : ℚ :=
  ((code : ℚ) - (e.offset : ℚ)) * e.scale

/-- Modelled from the spec: the fake-quantization operator
`quantize_dequantize(value, encoding)` (section 4.3), whose
implementation is not part of the source fragment. -/
def quantize_dequantize (value : ℚ) (e : Encoding) : ℚ :=
  dequantize (quantize value e) e

/-- Modelled from the spec: construction of an `Encoding` from a chosen
clipping range (sections 3 and 4.2), whose implementation is not part
of the source fragment.  The range is clipped so zero is included; the
asymmetric scale is `(max - min) / (2^bitwidth - 1)` and the offset the
code of the clipped minimum; a symmetric encoding forces min/max
symmetric around zero with a fixed zero offset.  A degenerate range
(constant-zero statistics) falls back to a fixed unit step so that no
division by zero occurs, per the section 4.2 edge-case policy. -/
def makeEncoding (rmin rmax : ℚ) (bitwidth : ℕ) (is_symmetric : Bool) :
    Encoding :=
  if is_symmetric then
    let absmax := Max.max (-(Min.min rmin 0)) (Max.max rmax 0)
    let scale := if absmax = 0 then 1 else absmax / ((2 : ℚ) ^ (bitwidth - 1) - 1)
    ⟨bitwidth, true, -absmax, absmax, scale, 0⟩
  else
    let emin := Min.min rmin 0
    let emax := Max.max rmax 0
    let scale := if emin = emax then 1 else (emax - emin) / ((2 : ℚ) ^ bitwidth - 1)
    ⟨bitwidth, false, emin, emax, scale, round (-emin / scale)⟩

/-- Candidate clipping ranges for the histogram-searching analyzers:
all ordered pairs of observed boundary points. -/
def candidateRanges (st : QuantStats) : List (ℚ × ℚ) :=
  let pts := st.obsMin :: st.obsMax :: st.samples
  pts.flatMap (fun a => pts.filterMap (fun b => if a ≤ b then some (a, b) else none))

/-- Pick the candidate range with the minimal score, preferring the
narrower range on ties, keeping the earlier candidate on full ties. -/
def pickRange (score : ℚ × ℚ → ℚ) (cands : List (ℚ × ℚ)) (dflt : ℚ × ℚ) :
    ℚ × ℚ :=
  cands.foldl
    (fun best c =>
      if score c < score best ∨
          (score c = score best ∧ c.2 - c.1 < best.2 - best.1) then c
      else best)
    dflt

/-- Modelled from the spec: the TF-Enhanced analyzer's score of a
candidate range (section 4.2), whose implementation is not part of the
source fragment: the total induced (saturation plus rounding)
quantization error over the histogram, in absolute value.  The exact
tuning constants are left open by the spec. -/
def tfEnhancedScore (bitwidth : ℕ) (is_symmetric : Bool) (st : QuantStats)
    (r : ℚ × ℚ) : ℚ :=
  let e := makeEncoding r.1 r.2 bitwidth is_symmetric
  (st.samples.map (fun v => |quantize_dequantize v e - v|)).sum

/-- Modelled from the spec: the MSE analyzer's score of a candidate
range (section 4.2), whose implementation is not part of the source
fragment: the total squared quantization error over the histogram. -/
def mseScore (bitwidth : ℕ) (is_symmetric : Bool) (st : QuantStats)
    (r : ℚ × ℚ) : ℚ :=
  let e := makeEncoding r.1 r.2 bitwidth is_symmetric
  (st.samples.map (fun v => (quantize_dequantize v e - v) ^ 2)).sum

/-- Modelled from the spec: the Entropy analyzer's score of a candidate
range (section 4.2), whose implementation is not part of the source
fragment.  The spec asks for a KL-divergence (or cross-entropy) between
the histogram distribution and its quantized approximation; logarithms
are not rational, so the divergence is modelled by the total variation
distance between the empirical sample distribution and its pushforward
through the fake-quantization map. -/
def entropyScore (bitwidth : ℕ) (is_symmetric : Bool) (st : QuantStats)
    (r : ℚ × ℚ) : ℚ :=
  let e := makeEncoding r.1 r.2 bitwidth is_symmetric
  let n : ℚ := (st.samples.length : ℚ)
  let pmass := fun x => ((st.samples.filter (fun v => v = x)).length : ℚ) / n
  let qmass := fun x =>
    ((st.samples.filter (fun v => quantize_dequantize v e = x)).length : ℚ) / n
  let support := (st.samples ++ st.samples.map (fun v => quantize_dequantize v e)).dedup
  (support.map (fun x => |pmass x - qmass x|)).sum / 2

/-- Modelled from the spec: the Percentile analyzer's range selection
(section 4.2), whose implementation is not part of the source fragment:
clip the range to the configured percentile of the histogram mass,
discarding an equal share of extreme outliers from each tail. -/
def percentileRange (pct : ℚ) (st : QuantStats) : ℚ × ℚ :=
  let sorted := st.samples.mergeSort (fun a b => a ≤ b)
  let n := sorted.length
  let k := (((1 - pct) / 2) * (n : ℚ)).floor.toNat
  (sorted.getD k st.obsMin, sorted.getD (n - 1 - k) st.obsMax)

/-- Modelled from the spec: the clipping-range selection policy of each
analyzer variant (section 4.2), whose implementation is not part of the
source fragment.  TF takes the observed range directly; the
histogram-searching variants pick the minimal-score candidate range
with a narrower-range tie-break. -/
def selectRange (k : AnalyzerKind) (bitwidth : ℕ) (is_symmetric : Bool)
    (st : QuantStats) : ℚ × ℚ :=
  match k with
  | .tf => (st.obsMin, st.obsMax)
  | .tfEnhanced =>
    pickRange (tfEnhancedScore bitwidth is_symmetric st) (candidateRanges st)
      (st.obsMin, st.obsMax)
  | .percentile pct => percentileRange pct st
  | .mse =>
    pickRange (mseScore bitwidth is_symmetric st) (candidateRanges st)
      (st.obsMin, st.obsMax)
  | .entropy =>
    pickRange (entropyScore bitwidth is_symmetric st) (candidateRanges st)
      (st.obsMin, st.obsMax)

/-- Modelled from the spec: `compute_encoding(stats, bitwidth,
is_symmetric)` common to every analyzer variant (section 4.2), whose
implementation is not part of the source fragment: a pure function of
the accumulated statistics. -/
def Analyzer.compute_encoding (k : AnalyzerKind) (st : QuantStats)
    (bitwidth : ℕ) (is_symmetric : Bool) : Encoding :=
  let r := selectRange k bitwidth is_symmetric st
  makeEncoding r.1 r.2 bitwidth is_symmetric

/-- Modelled from the spec: the lifecycle states of a Tensor Quantizer
(section 4.4), whose implementation is not part of the source
fragment. -/
inductive QState : Type
  | uninitialized
  | calibrating
  | active
  | frozen
deriving DecidableEq

/-- Modelled from the spec: the Tensor Quantizer (sections 3 and 4.4),
whose implementation is not part of the source fragment: one
accumulator, one nullable encoding, a lifecycle state, and the bound
analyzer configuration. -/
structure TensorQuantizer : Type where
  state : QState
  acc : Accumulator
  encoding : Option Encoding
  analyzer : AnalyzerKind
  bitwidth : ℕ
  is_symmetric : Bool
deriving DecidableEq

/-- Modelled from the spec: a freshly registered Tensor Quantizer in the
`UNINITIALIZED` state with an empty accumulator and no encoding. -/
def TensorQuantizer.init (k : AnalyzerKind) (bitwidth : ℕ)
    (is_symmetric : Bool) : TensorQuantizer :=
  ⟨.uninitialized, Accumulator.init, none, k, bitwidth, is_symmetric⟩

/-- Modelled from the spec: `update()` on a Tensor Quantizer (section
4.4), whose implementation is not part of the source fragment.  The
first update moves `UNINITIALIZED` to `CALIBRATING`; in `FROZEN`,
updates are accepted for telemetry (statistics still accumulate) but
the encoding is untouched. -/
def TensorQuantizer.update (tq : TensorQuantizer) (values : List ℚ) :
    TensorQuantizer :=
  let acc := tq.acc.update values
  match tq.state with
  | .uninitialized => { tq with state := .calibrating, acc := acc }
  | .calibrating => { tq with acc := acc }
  | .active => { tq with acc := acc }
  | .frozen => { tq with acc := acc }

/-- A sequence of `update()` calls on a Tensor Quantizer. -/
def TensorQuantizer.updates (tq : TensorQuantizer)
    (batches : List (List ℚ)) : TensorQuantizer :=
  batches.foldl TensorQuantizer.update tq

/-- Modelled from the spec: `compute_encoding()` on a Tensor Quantizer
(section 4.4), whose implementation is not part of the source fragment.
In `FROZEN` it is a no-op returning the frozen value; otherwise it
requires at least one absorbed update (else `EmptyStatisticsError`),
computes the encoding with the bound analyzer, and moves to
`ACTIVE`. -/
def TensorQuantizer.compute_encoding (tq : TensorQuantizer) :
    Except QuantError (TensorQuantizer × Encoding) :=
  match tq.state with
  | .frozen =>
    match tq.encoding with
    | some e => .ok (tq, e)
    | none => .error .frozenStateViolation
  | _ =>
    match tq.acc.get_stats with
    | .error err => .error err
    | .ok st =>
      let e := Analyzer.compute_encoding tq.analyzer st tq.bitwidth tq.is_symmetric
      .ok ({ tq with state := .active, encoding := some e }, e)

/-- Modelled from the spec: loading an externally computed encoding and
freezing it (sections 4.4 and 6, mirroring the notebook call
`set_and_freeze_param_encodings`), whose implementation is not part of
the source fragment. -/
def TensorQuantizer.set_and_freeze_encoding (tq : TensorQuantizer)
    (e : Encoding) : TensorQuantizer :=
  { tq with encoding := some e, state := .frozen }

/-- Modelled from the spec: the per-channel fake-quantization variant
(section 4.3), whose implementation is not part of the source fragment:
one encoding per channel slice, applied independently per slice, after
validating that the channel axis size equals the number of encodings
(else `ShapeMismatchError`). -/
def quantize_dequantize_per_channel (slices : List (List ℚ))
    (encodings : List Encoding) : Except QuantError (List (List ℚ)) :=
  if slices.length = encodings.length then
    .ok (List.zipWith
      (fun sl e => sl.map (fun v => quantize_dequantize v e)) slices encodings)
  else .error .shapeMismatch

/-- Specification-side description of per-channel quantization as C
independent per-tensor calls: for each channel index the per-tensor
fake-quantization function is applied to that channel slice with its
corresponding encoding. -/
def perTensorOnEachSlice (slices : List (List ℚ))
    (encodings : List Encoding) : List (List ℚ) :=
  (List.range slices.length).map
    (fun i => (slices.getD i []).map
      (fun v => quantize_dequantize v (encodings.getD i default)))

/-- Modelled from the spec: the Encoding invariants of the data model
(section 3) together with the offset convention forced by the
zero-preservation requirement of section 8: asymmetric encodings place
the offset at the code of the clipped minimum, symmetric ones fix it at
zero with min/max symmetric around zero; a degenerate (constant-zero)
range keeps a positive unit step. -/
def Wellformed (e : Encoding) : Prop :=
  2 ≤ e.bitwidth ∧ e.min ≤ 0 ∧ 0 ≤ e.max ∧
  (e.is_symmetric = false →
    e.offset = round (-e.min / e.scale) ∧
    ((e.min = e.max ∧ e.scale = 1) ∨
      (e.min < e.max ∧ e.scale = (e.max - e.min) / ((2 : ℚ) ^ e.bitwidth - 1)))) ∧
  (e.is_symmetric = true →
    e.offset = 0 ∧ e.min = -e.max ∧
    ((e.max = 0 ∧ e.scale = 1) ∨
      (0 < e.max ∧ e.scale = e.max / ((2 : ℚ) ^ (e.bitwidth - 1) - 1))))

end Quant

namespace SetupPy

theorem foldl_depStep_none (lines : List PyStr) :
    lines.foldl depStep none = none := by
  induction lines with
  | nil => rfl
  | cons l ls ih => simpa [depStep] using ih

theorem depStep_blank (pkgs : List PyStr) (line : PyStr)
    (h : ∀ c ∈ line, c.isWhitespace = true) :
    depStep (some pkgs) line = none := by
  have hdrop : line.dropWhile Char.isWhitespace = [] :=
    List.dropWhile_eq_nil_iff.mpr h
  have h1 : pyStrip line = [] := by simp [pyStrip, hdrop]
  have h2 : pyLstrip line = [] := hdrop
  simp [depStep, h1, h2, pyStartswith, pySplitWs, wsSplitAux, List.isPrefixOf]

theorem foldl_depStep_blank (lines : List PyStr) (acc : Option (List PyStr))
    (h : ∃ line ∈ lines, ∀ c ∈ line, c.isWhitespace = true) :
    lines.foldl depStep acc = none := by
  induction lines generalizing acc with
  | nil => exact absurd h (by simp)
  | cons l ls ih =>
    rcases h with ⟨bl, hmem, hws⟩
    rcases List.mem_cons.mp hmem with hbl | hbl
    · subst hbl
      cases acc with
      | none => simp only [List.foldl_cons]; exact foldl_depStep_none ls
      | some pkgs =>
        simp only [List.foldl_cons, depStep_blank pkgs bl hws]
        exact foldl_depStep_none ls
    · exact ih _ ⟨bl, hbl, hws⟩

/-- Claim C10: `get_dependency_packages` skips exactly the lines whose
stripped form starts with `#`; a dependency file containing a blank
(all-whitespace) line makes `dependency_line.lstrip().split()[0]` raise
an `IndexError` (modelled as `none`) instead of skipping the line. -/
theorem get_dependency_packages_blank_line_raises (lines : List PyStr)
    (h : ∃ line ∈ lines, ∀ c ∈ line, c.isWhitespace = true) :
    get_dependency_packages lines = none ∧
    ∀ (pkgs : List PyStr) (line : PyStr),
      (depStep (some pkgs) line = some pkgs ↔
        pyStartswith (pyStrip line) ['#'] = true) := by
  constructor
  · exact foldl_depStep_blank lines (some []) h
  · intro pkgs line
    constructor
    · intro hstep
      by_contra hns
      rw [Bool.not_eq_true] at hns
      simp only [depStep, hns, Bool.false_eq_true, if_false] at hstep
      cases htok : pySplitWs (pyLstrip line) with
      | nil => rw [htok] at hstep; exact Option.noConfusion hstep
      | cons t ts =>
        rw [htok] at hstep
        have := Option.some.inj hstep
        have hlen := congrArg List.length this
        simp at hlen
    · intro hc
      simp [depStep, hc]

theorem get_dependency_packages_blank_line_witness :
    get_dependency_packages [['a'], [' ']] = none :=
  (get_dependency_packages_blank_line_raises [['a'], [' ']]
    ⟨[' '], by simp, by decide⟩).1

/-- Claim C9: when no file in the walked directory tree starts with the
wheel prefix plus `-` plus the version string and ends in `whl`,
`get_dependency_wheel` returns the literal four-character string
`None`. -/
theorem get_dependency_wheel_none_literal (wheel_starts_with sw_version : PyStr)
    (walk : List (List PyStr))
    (h : ∀ file ∈ walk.flatten,
      (pyStartswith file (wheel_starts_with ++ '-' :: sw_version) &&
        pyEndswith file ['w', 'h', 'l']) = false) :
    get_dependency_wheel wheel_starts_with sw_version walk =
      ['N', 'o', 'n', 'e'] := by
  have hf : walk.flatten.find? (fun file =>
      pyStartswith file (wheel_starts_with ++ '-' :: sw_version) &&
      pyEndswith file ['w', 'h', 'l']) = none :=
    List.find?_eq_none.mpr (fun x hx => by simp [h x hx])
  simp [get_dependency_wheel, hf]

theorem get_dependency_wheel_none_literal_witness :
    get_dependency_wheel ['a'] ['1'] [[['x', 't']], [['a', '2']]] =
      ['N', 'o', 'n', 'e'] :=
  get_dependency_wheel_none_literal ['a'] ['1'] [[['x', 't']], [['a', '2']]]
    (by decide)

theorem mem_of_mem_dedupKeepFirst {α : Type} [DecidableEq α] :
    ∀ (l : List α) (a : α), a ∈ dedupKeepFirst l → a ∈ l := by
  intro l
  induction l using dedupKeepFirst.induct with
  | case1 => intro a ha; simp [dedupKeepFirst] at ha
  | case2 x xs ih =>
    intro a ha
    rw [dedupKeepFirst] at ha
    rcases List.mem_cons.mp ha with h | h
    · exact h ▸ List.mem_cons_self _ _
    · exact List.mem_cons_of_mem _ (List.mem_of_mem_filter (ih a h))

theorem dedupKeepFirst_nodup {α : Type} [DecidableEq α] :
    ∀ l : List α, (dedupKeepFirst l).Nodup := by
  intro l
  induction l using dedupKeepFirst.induct with
  | case1 => simp [dedupKeepFirst]
  | case2 x xs ih =>
    rw [dedupKeepFirst]
    refine List.nodup_cons.mpr ⟨fun hx => ?_, ih⟩
    have := List.of_mem_filter (mem_of_mem_dedupKeepFirst _ _ hx)
    simp at this

theorem foldl_urlStep_eq (lines : List PyStr) (acc : List PyStr) :
    lines.foldl urlStep acc =
      acc ++ dedupKeepFirst
        ((lines.filterMap urlOfLine).filter (fun u => !(decide (u ∈ acc)))) := by
  induction lines generalizing acc with
  | nil => simp [dedupKeepFirst]
  | cons l ls ih =>
    simp only [List.foldl_cons, List.filterMap_cons]
    cases hu : urlOfLine l with
    | none => simpa [urlStep, hu] using ih acc
    | some u =>
      by_cases hm : u ∈ acc
      · have hstep : urlStep acc l = acc := by simp [urlStep, hu, hm]
        have hfil : (u :: ls.filterMap urlOfLine).filter
              (fun v => !(decide (v ∈ acc))) =
            (ls.filterMap urlOfLine).filter (fun v => !(decide (v ∈ acc))) := by
          simp [List.filter_cons, hm]
        rw [hstep, hfil]
        exact ih acc
      · have hstep : urlStep acc l = acc ++ [u] := by simp [urlStep, hu, hm]
        have hfil2 : (ls.filterMap urlOfLine).filter
              (fun v => !(decide (v ∈ acc ++ [u]))) =
            ((ls.filterMap urlOfLine).filter (fun v => !(decide (v ∈ acc)))).filter
              (fun v => !(v == u)) := by
          rw [List.filter_filter]
          apply List.filter_congr
          intro v _
          by_cases h1 : v ∈ acc <;> by_cases h2 : v = u <;>
            simp [h1, h2, List.mem_append]
        rw [hstep, ih (acc ++ [u]), hfil2]
        have hcons : (u :: ls.filterMap urlOfLine).filter
              (fun v => !(decide (v ∈ acc))) =
            u :: (ls.filterMap urlOfLine).filter (fun v => !(decide (v ∈ acc))) := by
          simp [List.filter_cons, hm]
        rw [hcons, dedupKeepFirst]
        have hfilbeq : ∀ (X : List PyStr),
            (X.filter fun y => y ≠ u) = X.filter (fun v => !(v == u)) := by
          intro X
          apply List.filter_congr
          intro v _
          by_cases h2 : v = u <;> simp [h2]
        rw [hfilbeq]
        simp [List.append_assoc]

/-- Claim C8: `get_dependency_urls` returns a duplicate-free list; it
equals the extracted URL sequence with every later duplicate dropped,
keeping first occurrences in order. -/
theorem get_dependency_urls_duplicate_free (lines : List PyStr) :
    (get_dependency_urls lines).Nodup ∧
    get_dependency_urls lines = dedupKeepFirst (lines.filterMap urlOfLine) := by
  have h := foldl_urlStep_eq lines []
  simp only [List.not_mem_nil, decide_False, Bool.not_false, List.filter_true,
    List.nil_append] at h
  rw [get_dependency_urls, h]
  exact ⟨dedupKeepFirst_nodup _, rfl⟩

end SetupPy

namespace Quant

theorem clampInt_idem (x lo hi : ℤ) :
    clampInt (clampInt x lo hi) lo hi = clampInt x lo hi := by
  simp only [clampInt]
  omega

theorem clampInt_round_close (x : ℚ) (lo hi : ℤ) (hlohi : lo ≤ hi)
    (h1 : (lo : ℚ) - 1/2 ≤ x) (h2 : x ≤ (hi : ℚ) + 1/2) :
    |((clampInt (round x) lo hi : ℤ) : ℚ) - x| ≤ 1/2 := by
  have hlo : lo ≤ round x := by
    rw [round_eq]
    exact Int.le_floor.mpr (by push_cast; linarith)
  by_cases hhi : round x ≤ hi
  · have hc : clampInt (round x) lo hi = round x := by
      simp only [clampInt]; omega
    rw [hc, abs_sub_comm]
    exact abs_sub_round x
  · push_neg at hhi
    have hc : clampInt (round x) lo hi = hi := by
      simp only [clampInt]; omega
    rw [hc]
    have h3 : ((hi : ℚ) + 1) ≤ x + 1/2 := by
      have h4 : (hi + 1 : ℤ) ≤ ⌊x + 1/2⌋ := by rw [← round_eq]; omega
      have h5 := Int.le_floor.mp h4
      push_cast at h5 ⊢
      linarith
    have hx : x = (hi : ℚ) + 1/2 := le_antisymm h2 (by linarith)
    rw [hx]
    have heval : ((hi : ℤ) : ℚ) - ((hi : ℚ) + 1/2) = -(1/2) := by
      push_cast; ring
    rw [heval, abs_neg]
    rw [abs_of_nonneg (by norm_num)]

theorem qd_error_of_bounds (v : ℚ) (e : Encoding) (hs : 0 < e.scale)
    (hlohi : qmin e ≤ qmax e)
    (hlo : ((qmin e : ℤ) : ℚ) - 1/2 ≤ v / e.scale + (e.offset : ℚ))
    (hhi : v / e.scale + (e.offset : ℚ) ≤ ((qmax e : ℤ) : ℚ) + 1/2) :
    |dequantize (quantize v e) e - v| ≤ e.scale := by
  set x := v / e.scale + (e.offset : ℚ) with hxdef
  have hkey := clampInt_round_close x (qmin e) (qmax e) hlohi hlo hhi
  set c := clampInt (round x) (qmin e) (qmax e) with hcdef
  have hquant : quantize v e = c := rfl
  have hv : (x - (e.offset : ℚ)) * e.scale = v := by
    rw [hxdef]
    field_simp
    ring
  have hexp : dequantize c e - v = ((c : ℚ) - x) * e.scale := by
    unfold dequantize
    calc ((c : ℚ) - (e.offset : ℚ)) * e.scale - v
        = ((c : ℚ) - x) * e.scale + (x - (e.offset : ℚ)) * e.scale - v := by ring
      _ = ((c : ℚ) - x) * e.scale := by rw [hv]; ring
  rw [hquant, hexp, abs_mul, abs_of_pos hs]
  calc |(c : ℚ) - x| * e.scale ≤ (1/2) * e.scale :=
        mul_le_mul_of_nonneg_right hkey (le_of_lt hs)
    _ ≤ e.scale := by linarith

/-- Claim C2: the fake-quantization operator is idempotent after the
first application: for every value and every encoding, applying
`quantize_dequantize` twice equals applying it once (codes are already
snapped to the grid). -/
theorem quantize_dequantize_idem (v : ℚ) (e : Encoding) :
    quantize_dequantize (quantize_dequantize v e) e =
      quantize_dequantize v e := by
  by_cases hs : e.scale = 0
  · simp [quantize_dequantize, dequantize, hs]
  · suffices h : quantize (dequantize (quantize v e) e) e = quantize v e by
      rw [quantize_dequantize, quantize_dequantize, h]
    set c := quantize v e with hcdef
    have h1 : quantize (dequantize c e) e = clampInt c (qmin e) (qmax e) := by
      unfold quantize dequantize
      have h2 : ((c : ℚ) - (e.offset : ℚ)) * e.scale / e.scale + (e.offset : ℚ)
          = (c : ℚ) := by field_simp
      rw [h2, round_intCast]
    rw [h1, hcdef]
    exact clampInt_idem _ _ _

theorem makeEncoding_wellformed (rmin rmax : ℚ) (bw : ℕ) (sym : Bool)
    (hbw : 2 ≤ bw) : Wellformed (makeEncoding rmin rmax bw sym) := by
  cases sym with
  | false =>
    refine ⟨hbw, ?_, ?_, ?_, ?_⟩
    · simpa [makeEncoding] using min_le_right rmin 0
    · simpa [makeEncoding] using le_max_right rmax 0
    · intro _
      constructor
      · simp [makeEncoding]
      · by_cases hdeg : Min.min rmin 0 = Max.max rmax 0
        · left
          simp [makeEncoding, hdeg]
        · right
          have hle : Min.min rmin 0 ≤ Max.max rmax 0 :=
            le_trans (min_le_right rmin 0) (le_max_right rmax 0)
          constructor
          · simpa [makeEncoding] using lt_of_le_of_ne hle hdeg
          · simp [makeEncoding, hdeg]
    · intro hcontra
      simp [makeEncoding] at hcontra
  | true =>
    have habs : 0 ≤ Max.max (-(Min.min rmin 0)) (Max.max rmax 0) :=
      le_trans (le_trans (le_max_right rmax 0) (le_max_right _ _)) (le_refl _)
    refine ⟨hbw, ?_, ?_, ?_, ?_⟩
    · simpa [makeEncoding] using neg_nonpos.mpr habs
    · simpa [makeEncoding] using habs
    · intro hcontra
      simp [makeEncoding] at hcontra
    · intro _
      refine ⟨by simp [makeEncoding], by simp [makeEncoding], ?_⟩
      by_cases hdeg : Max.max (-(Min.min rmin 0)) (Max.max rmax 0) = 0
      · left
        simp [makeEncoding, hdeg]
      · right
        constructor
        · simpa [makeEncoding] using lt_of_le_of_ne habs (Ne.symm hdeg)
        · simp [makeEncoding, hdeg]

theorem wellformed_scale_pos (e : Encoding) (hw : Wellformed e) :
    0 < e.scale := by
  obtain ⟨hbw, hm, hM, hA, hS⟩ := hw
  have hpow : (1 : ℚ) < 2 ^ e.bitwidth := one_lt_pow₀ (by norm_num) (by omega)
  have hpow1 : (1 : ℚ) < 2 ^ (e.bitwidth - 1) :=
    one_lt_pow₀ (by norm_num) (by omega)
  cases hsym : e.is_symmetric with
  | false =>
    rcases (hA hsym).2 with ⟨-, hd⟩ | ⟨hlt, hd⟩
    · rw [hd]; norm_num
    · rw [hd]
      exact div_pos (by linarith) (by linarith)
  | true =>
    rcases (hS hsym).2.2 with ⟨-, hd⟩ | ⟨hpos, hd⟩
    · rw [hd]; norm_num
    · rw [hd]
      exact div_pos hpos (by linarith)

/-- Claim C1: for every wellformed encoding with bitwidth in [2, 32] and
every value within [min, max], the round trip
`dequantize(quantize(v, enc), enc)` differs from `v` by at most one
`scale`. -/
theorem dequantize_quantize_within_one_scale (e : Encoding)
    (hw : Wellformed e) (hb32 : e.bitwidth ≤ 32) (v : ℚ)
    (hvl : e.min ≤ v) (hvu : v ≤ e.max) :
    |dequantize (quantize v e) e - v| ≤ e.scale := by
  have hs := wellformed_scale_pos e hw
  obtain ⟨hbw, hm0, hM0, hA, hS⟩ := hw
  have hpow : (1 : ℚ) < 2 ^ e.bitwidth := one_lt_pow₀ (by norm_num) (by omega)
  have hpow1 : (1 : ℚ) < 2 ^ (e.bitwidth - 1) :=
    one_lt_pow₀ (by norm_num) (by omega)
  have hpowZ : (0 : ℤ) < 2 ^ e.bitwidth := pow_pos (by norm_num) _
  have hpowZ1 : (0 : ℤ) < 2 ^ (e.bitwidth - 1) := pow_pos (by norm_num) _
  cases hsym : e.is_symmetric with
  | false =>
    obtain ⟨hoff, hd⟩ := hA hsym
    have hqmin : qmin e = 0 := by simp [qmin, hsym]
    have hqmax : qmax e = 2 ^ e.bitwidth - 1 := by simp [qmax, hsym]
    have hlohi : qmin e ≤ qmax e := by rw [hqmin, hqmax]; omega
    rcases hd with ⟨heq, hsc1⟩ | ⟨hlt, hform⟩
    · have hminz : e.min = 0 := le_antisymm hm0 (heq ▸ hM0)
      have hmaxz : e.max = 0 := by rw [← heq, hminz]
      have hv0 : v = 0 := le_antisymm (hmaxz ▸ hvu) (hminz ▸ hvl)
      have hoff0 : e.offset = 0 := by
        rw [hoff, hminz, hsc1]
        norm_num
      apply qd_error_of_bounds v e hs hlohi
      · rw [hqmin, hoff0, hv0, zero_div]
        push_cast
        norm_num
      · rw [hqmax, hoff0, hv0, zero_div]
        push_cast
        linarith
    · have hob := abs_le.mp (hoff ▸ abs_sub_round (-e.min / e.scale))
      have hK : (e.max - e.min) / e.scale = (2 : ℚ) ^ e.bitwidth - 1 := by
        rw [hform]
        have hne : e.max - e.min ≠ 0 := sub_ne_zero.mpr (ne_of_gt hlt)
        rw [div_div_eq_mul_div, mul_div_cancel_left₀ _ hne]
      have h1 : e.min / e.scale ≤ v / e.scale := by gcongr
      have h2 : v / e.scale ≤ e.max / e.scale := by gcongr
      have hsub : e.max / e.scale - e.min / e.scale =
          (2 : ℚ) ^ e.bitwidth - 1 := by
        rw [← sub_div, hK]
      apply qd_error_of_bounds v e hs hlohi
      · rw [hqmin]
        push_cast
        have hob2 := hob.2
        rw [neg_div] at hob2
        linarith
      · rw [hqmax]
        push_cast
        have hob1 := hob.1
        rw [neg_div] at hob1
        linarith
  | true =>
    obtain ⟨hoff, hmm, hd⟩ := hS hsym
    have hqmin : qmin e = -(2 ^ (e.bitwidth - 1)) := by simp [qmin, hsym]
    have hqmax : qmax e = 2 ^ (e.bitwidth - 1) - 1 := by simp [qmax, hsym]
    have hlohi : qmin e ≤ qmax e := by rw [hqmin, hqmax]; omega
    have hoffq : ((e.offset : ℤ) : ℚ) = 0 := by rw [hoff]; norm_num
    rcases hd with ⟨hmaxz, hsc1⟩ | ⟨hpos, hform⟩
    · have hminz : e.min = 0 := by rw [hmm, hmaxz, neg_zero]
      have hv0 : v = 0 := le_antisymm (hmaxz ▸ hvu) (hminz ▸ hvl)
      apply qd_error_of_bounds v e hs hlohi
      · rw [hqmin, hv0, zero_div, hoffq]
        push_cast
        linarith
      · rw [hqmax, hv0, zero_div, hoffq]
        push_cast
        linarith
    · have hK : e.max / e.scale = (2 : ℚ) ^ (e.bitwidth - 1) - 1 := by
        rw [hform]
        have hne : e.max ≠ 0 := ne_of_gt hpos
        rw [div_div_eq_mul_div, mul_div_cancel_left₀ _ hne]
      have h1 : e.min / e.scale ≤ v / e.scale := by gcongr
      have h2 : v / e.scale ≤ e.max / e.scale := by gcongr
      have hminK : e.min / e.scale = -((2 : ℚ) ^ (e.bitwidth - 1) - 1) := by
        rw [hmm, neg_div, hK]
      apply qd_error_of_bounds v e hs hlohi
      · rw [hqmin, hoffq]
        push_cast
        linarith [hminK ▸ h1]
      · rw [hqmax, hoffq]
        push_cast
        linarith [hK ▸ h2]

theorem dequantize_quantize_within_one_scale_witness :
    |dequantize (quantize 0 (Analyzer.compute_encoding AnalyzerKind.tf
        ⟨-1, 2, [-1, 0, 1/2, 2]⟩ 8 false))
      (Analyzer.compute_encoding AnalyzerKind.tf
        ⟨-1, 2, [-1, 0, 1/2, 2]⟩ 8 false) - 0| ≤
    (Analyzer.compute_encoding AnalyzerKind.tf
      ⟨-1, 2, [-1, 0, 1/2, 2]⟩ 8 false).scale :=
  dequantize_quantize_within_one_scale _
    (makeEncoding_wellformed (-1) 2 8 false (by norm_num)) (by decide) 0
    (min_le_right (-1) 0) (le_max_right 2 0)

end Quant

namespace Quant

/-- Claim C3: accumulating the values [-1, 0, 1/2, 2] and computing an
encoding with the TF analyzer at bitwidth 8, asymmetric, yields
min = -1, max = 2, scale = 3/255; quantizing 0 under that encoding
yields exactly the offset code, and dequantizing that code returns
exactly 0 (zero-preservation). -/
theorem tf_example_zero_preservation :
    Accumulator.get_stats (Accumulator.update Accumulator.init
        [-1, 0, 1/2, 2]) =
      Except.ok ⟨-1, 2, [-1, 0, 1/2, 2]⟩ ∧
    (Analyzer.compute_encoding AnalyzerKind.tf
      ⟨-1, 2, [-1, 0, 1/2, 2]⟩ 8 false).min = -1 ∧
    (Analyzer.compute_encoding AnalyzerKind.tf
      ⟨-1, 2, [-1, 0, 1/2, 2]⟩ 8 false).max = 2 ∧
    (Analyzer.compute_encoding AnalyzerKind.tf
      ⟨-1, 2, [-1, 0, 1/2, 2]⟩ 8 false).scale = 3/255 ∧
    quantize 0 (Analyzer.compute_encoding AnalyzerKind.tf
        ⟨-1, 2, [-1, 0, 1/2, 2]⟩ 8 false) =
      (Analyzer.compute_encoding AnalyzerKind.tf
        ⟨-1, 2, [-1, 0, 1/2, 2]⟩ 8 false).offset ∧
    dequantize (Analyzer.compute_encoding AnalyzerKind.tf
        ⟨-1, 2, [-1, 0, 1/2, 2]⟩ 8 false).offset
      (Analyzer.compute_encoding AnalyzerKind.tf
        ⟨-1, 2, [-1, 0, 1/2, 2]⟩ 8 false) = 0 := by
  have hstats : Accumulator.get_stats (Accumulator.update Accumulator.init
      [-1, 0, 1/2, 2]) = Except.ok ⟨-1, 2, [-1, 0, 1/2, 2]⟩ := by
    simp only [Accumulator.update, List.foldl_cons, List.foldl_nil,
      Accumulator.updateOne, Accumulator.init, Accumulator.get_stats]
    norm_num
  have hmin : (Analyzer.compute_encoding AnalyzerKind.tf
      ⟨-1, 2, [-1, 0, 1/2, 2]⟩ 8 false).min = -1 := by
    simp only [Analyzer.compute_encoding, selectRange, makeEncoding]
    norm_num
  have hmax : (Analyzer.compute_encoding AnalyzerKind.tf
      ⟨-1, 2, [-1, 0, 1/2, 2]⟩ 8 false).max = 2 := by
    simp only [Analyzer.compute_encoding, selectRange, makeEncoding]
    norm_num
  have hscale : (Analyzer.compute_encoding AnalyzerKind.tf
      ⟨-1, 2, [-1, 0, 1/2, 2]⟩ 8 false).scale = 3/255 := by
    simp only [Analyzer.compute_encoding, selectRange, makeEncoding]
    norm_num
  have hoffv : (Analyzer.compute_encoding AnalyzerKind.tf
      ⟨-1, 2, [-1, 0, 1/2, 2]⟩ 8 false).offset = 85 := by
    simp only [Analyzer.compute_encoding, selectRange, makeEncoding]
    norm_num [round_eq]
  refine ⟨hstats, hmin, hmax, hscale, ?_, ?_⟩
  · rw [quantize, hscale, hoffv, zero_div, qmin, qmax]
    simp only [Analyzer.compute_encoding, selectRange, makeEncoding]
    norm_num [round_eq, clampInt]
  · rw [dequantize, hoffv, hscale]
    norm_num

/-- Claim C4 counterexample: the TF analyzer on the constant-zero stream
[0] (a state reachable through the accumulator) produces an asymmetric
encoding whose scale is the degenerate positive unit step, not
`(max - min) / (2^bitwidth - 1)` (which would be zero). -/
theorem compute_encoding_scale_invariant_counterexample :
    Accumulator.get_stats (Accumulator.update Accumulator.init [0]) =
      Except.ok ⟨0, 0, [0]⟩ ∧
    (Analyzer.compute_encoding AnalyzerKind.tf ⟨0, 0, [0]⟩ 8 false).is_symmetric
      = false ∧
    (Analyzer.compute_encoding AnalyzerKind.tf ⟨0, 0, [0]⟩ 8 false).scale ≠
      ((Analyzer.compute_encoding AnalyzerKind.tf ⟨0, 0, [0]⟩ 8 false).max -
        (Analyzer.compute_encoding AnalyzerKind.tf ⟨0, 0, [0]⟩ 8 false).min) /
        ((2 : ℚ) ^
          (Analyzer.compute_encoding AnalyzerKind.tf ⟨0, 0, [0]⟩ 8 false).bitwidth
          - 1) := by
  refine ⟨?_, rfl, ?_⟩
  · simp only [Accumulator.update, List.foldl_cons, List.foldl_nil,
      Accumulator.updateOne, Accumulator.init, Accumulator.get_stats]
    norm_num
  · simp only [Analyzer.compute_encoding, selectRange, makeEncoding]
    norm_num

/-- Claim C4 (amended): every encoding produced by any analyzer at
bitwidth at least 2 satisfies min ≤ 0 ≤ max and has a positive scale;
in asymmetric mode the scale is `(max - min) / (2^bitwidth - 1)`
whenever min < max, and the degenerate constant-zero range (min = max)
keeps the fixed positive unit step instead; in symmetric mode the
offset is fixed at zero and min/max are symmetric around zero. -/
theorem compute_encoding_invariants (k : AnalyzerKind) (st : QuantStats)
    (bw : ℕ) (sym : Bool) (hbw : 2 ≤ bw) :
    (Analyzer.compute_encoding k st bw sym).min ≤ 0 ∧
    0 ≤ (Analyzer.compute_encoding k st bw sym).max ∧
    0 < (Analyzer.compute_encoding k st bw sym).scale ∧
    ((Analyzer.compute_encoding k st bw sym).is_symmetric = false →
      ((Analyzer.compute_encoding k st bw sym).min <
          (Analyzer.compute_encoding k st bw sym).max →
        (Analyzer.compute_encoding k st bw sym).scale =
          ((Analyzer.compute_encoding k st bw sym).max -
            (Analyzer.compute_encoding k st bw sym).min) /
            ((2 : ℚ) ^ (Analyzer.compute_encoding k st bw sym).bitwidth - 1)) ∧
      ((Analyzer.compute_encoding k st bw sym).min =
          (Analyzer.compute_encoding k st bw sym).max →
        (Analyzer.compute_encoding k st bw sym).scale = 1)) ∧
    ((Analyzer.compute_encoding k st bw sym).is_symmetric = true →
      (Analyzer.compute_encoding k st bw sym).offset = 0 ∧
      (Analyzer.compute_encoding k st bw sym).min =
        -(Analyzer.compute_encoding k st bw sym).max) := by
  have hw : Wellformed (Analyzer.compute_encoding k st bw sym) := by
    rw [Analyzer.compute_encoding]
    exact makeEncoding_wellformed _ _ bw sym hbw
  refine ⟨hw.2.1, hw.2.2.1, wellformed_scale_pos _ hw, ?_, ?_⟩
  · intro hsym
    constructor
    · intro hlt
      rcases (hw.2.2.2.1 hsym).2 with ⟨heq, -⟩ | ⟨-, hform⟩
      · exact absurd heq (ne_of_lt hlt)
      · exact hform
    · intro heq
      rcases (hw.2.2.2.1 hsym).2 with ⟨-, hone⟩ | ⟨hlt, -⟩
      · exact hone
      · exact absurd heq (ne_of_lt hlt)
  · intro hsym
    exact ⟨(hw.2.2.2.2 hsym).1, (hw.2.2.2.2 hsym).2.1⟩

theorem compute_encoding_invariants_witness :
    0 < (Analyzer.compute_encoding AnalyzerKind.tf
      ⟨-1, 2, [-1, 0, 1/2, 2]⟩ 8 false).scale :=
  (compute_encoding_invariants AnalyzerKind.tf ⟨-1, 2, [-1, 0, 1/2, 2]⟩ 8 false
    (by decide)).2.2.1

end Quant

namespace Quant

theorem update_frozen_preserves (tq : TensorQuantizer)
    (h : tq.state = QState.frozen) (values : List ℚ) :
    (tq.update values).state = QState.frozen ∧
    (tq.update values).encoding = tq.encoding := by
  simp [TensorQuantizer.update, h]

theorem updates_frozen_preserves (batches : List (List ℚ))
    (tq : TensorQuantizer) (h : tq.state = QState.frozen) :
    (tq.updates batches).state = QState.frozen ∧
    (tq.updates batches).encoding = tq.encoding := by
  induction batches generalizing tq with
  | nil => exact ⟨h, rfl⟩
  | cons b bs ih =>
    have hp := update_frozen_preserves tq h b
    have hrest := ih (tq.update b) hp.1
    exact ⟨hrest.1, hp.2 ▸ hrest.2⟩

/-- Claim C5: for a Tensor Quantizer in the FROZEN state holding a
frozen encoding, any sequence of further update() calls leaves the
encoding returned by compute_encoding() unchanged: after the updates it
still returns the frozen value held before them. -/
theorem frozen_updates_keep_encoding (tq : TensorQuantizer) (e : Encoding)
    (hst : tq.state = QState.frozen) (henc : tq.encoding = some e)
    (batches : List (List ℚ)) :
    ((tq.updates batches).compute_encoding).map Prod.snd = Except.ok e ∧
    (tq.compute_encoding).map Prod.snd = Except.ok e := by
  have hp := updates_frozen_preserves batches tq hst
  constructor
  · rw [TensorQuantizer.compute_encoding, hp.1, hp.2, henc]
    rfl
  · rw [TensorQuantizer.compute_encoding, hst, henc]
    rfl

theorem frozen_updates_keep_encoding_witness :
    ((((TensorQuantizer.init AnalyzerKind.tf 8 false).set_and_freeze_encoding
          ⟨8, false, -1, 2, 1, 0⟩).updates
        [[3], [100]]).compute_encoding).map Prod.snd =
      Except.ok ⟨8, false, -1, 2, 1, 0⟩ :=
  (frozen_updates_keep_encoding
    ((TensorQuantizer.init AnalyzerKind.tf 8 false).set_and_freeze_encoding
      ⟨8, false, -1, 2, 1, 0⟩)
    ⟨8, false, -1, 2, 1, 0⟩ rfl rfl [[3], [100]]).1

theorem update_count (values : List ℚ) (a : Accumulator) :
    (a.update values).count = a.count + values.length := by
  induction values generalizing a with
  | nil => rfl
  | cons v vs ih =>
    rw [Accumulator.update, List.foldl_cons, ← Accumulator.update, ih]
    unfold Accumulator.updateOne
    split <;> simp <;> omega

/-- Claim C6: get_stats() on an accumulator before any value has been
absorbed signals EmptyStatisticsError, and compute_encoding() on a
quantizer with zero absorbed updates fails with EmptyStatisticsError
rather than returning a default encoding; after an update with a
nonempty batch neither call signals this error. -/
theorem empty_statistics_error (k : AnalyzerKind) (bw : ℕ) (sym : Bool)
    (values : List ℚ) (hv : values ≠ []) :
    Accumulator.get_stats Accumulator.init =
      Except.error QuantError.emptyStatistics ∧
    (TensorQuantizer.init k bw sym).compute_encoding =
      Except.error QuantError.emptyStatistics ∧
    Accumulator.get_stats (Accumulator.init.update values) ≠
      Except.error QuantError.emptyStatistics ∧
    ((TensorQuantizer.init k bw sym).update values).compute_encoding ≠
      Except.error QuantError.emptyStatistics := by
  have hcnt : (Accumulator.init.update values).count = values.length := by
    rw [update_count]
    simp [Accumulator.init]
  have hne : (Accumulator.init.update values).count ≠ 0 := by
    rw [hcnt]
    exact fun h0 => hv (List.length_eq_zero.mp h0)
  refine ⟨rfl, rfl, ?_, ?_⟩
  · rw [Accumulator.get_stats, if_neg hne]
    exact fun h => Except.noConfusion h
  · rw [TensorQuantizer.compute_encoding]
    have hstate : ((TensorQuantizer.init k bw sym).update values).state =
        QState.calibrating := by
      rfl
    rw [hstate]
    have hacc : ((TensorQuantizer.init k bw sym).update values).acc =
        Accumulator.init.update values := rfl
    rw [hacc, Accumulator.get_stats, if_neg hne]
    exact fun h => Except.noConfusion h

theorem empty_statistics_error_witness :
    (TensorQuantizer.init AnalyzerKind.tf 8 false).compute_encoding =
      Except.error QuantError.emptyStatistics ∧
    ((TensorQuantizer.init AnalyzerKind.tf 8 false).update
        [1]).compute_encoding ≠
      Except.error QuantError.emptyStatistics :=
  ⟨(empty_statistics_error AnalyzerKind.tf 8 false [1]
      (List.cons_ne_nil 1 [])).2.1,
    (empty_statistics_error AnalyzerKind.tf 8 false [1]
      (List.cons_ne_nil 1 [])).2.2.2⟩

theorem zipWith_eq_range_map (slices : List (List ℚ))
    (encodings : List Encoding) (h : slices.length = encodings.length) :
    List.zipWith (fun sl e => sl.map (fun v => quantize_dequantize v e))
        slices encodings =
      perTensorOnEachSlice slices encodings := by
  induction slices generalizing encodings with
  | nil => simp [perTensorOnEachSlice]
  | cons s ss ih =>
    cases encodings with
    | nil => exact absurd h (by simp)
    | cons e es =>
      have hlen : ss.length = es.length := by simpa using h
      rw [List.zipWith_cons_cons, perTensorOnEachSlice]
      rw [List.length_cons, List.range_succ_eq_map]
      rw [List.map_cons, List.map_map]
      rw [ih es hlen, perTensorOnEachSlice]
      congr 1

/-- Claim C7: for every tensor (list of channel slices) and every
vector of encodings of matching length, per-channel fake quantization
equals applying the per-tensor fake-quantization function independently
to each channel slice with its corresponding encoding. -/
theorem per_channel_eq_per_tensor (slices : List (List ℚ))
    (encodings : List Encoding) (h : slices.length = encodings.length) :
    quantize_dequantize_per_channel slices encodings =
      Except.ok (perTensorOnEachSlice slices encodings) := by
  rw [quantize_dequantize_per_channel, if_pos h,
    zipWith_eq_range_map slices encodings h]

theorem per_channel_eq_per_tensor_witness :
    quantize_dequantize_per_channel [[0], [1, 2]]
        [⟨8, false, -1, 2, 1, 0⟩, ⟨8, false, -2, 2, 1, 0⟩] =
      Except.ok (perTensorOnEachSlice [[0], [1, 2]]
        [⟨8, false, -1, 2, 1, 0⟩, ⟨8, false, -2, 2, 1, 0⟩]) :=
  per_channel_eq_per_tensor [[0], [1, 2]]
    [⟨8, false, -1, 2, 1, 0⟩, ⟨8, false, -2, 2, 1, 0⟩] rfl

end Quant
